import Mathlib

/-!
# Karera platform: shallow embedding and verification

A shallow embedding of the `karera_platform` ink! contract (`src/lib.rs`):
a horse-race simulator with pari-mutuel betting.  The contract state is
modelled as an explicit `State` record; each `#[ink(message)]` entry point
becomes a pure Lean function from a state and a per-call environment
(caller, transferred value, block number, block timestamp, and the outcome
of the host's value-transfer capability) to the new state and a
`Except Error` result.  A Rust panic (the `race.rankings[0]` indexing in
`finish_race`, which in a contract traps and reverts) is modelled by an
`Option`: `none` is a trap.

Machine integers are modelled as `Nat`.  `u32` arithmetic that can wrap
(the LCG in `pseudo_random`, the `position +=` update, the block
subtraction) carries an explicit `% 2^32`.  `Balance` (`u128`) pool
arithmetic is kept as plain `Nat` addition/multiplication; the u128
wrapped forms of the two spots where overflow could matter are defined
separately (`poolAddU128`, `payoutMulU128`) and related to the exact
values under realistic magnitude bounds.

Events (`emit_event`) are fire-and-forget observational outputs and are
not modelled.

ink! `Mapping`s are modelled as `K → Option V` lookup functions, except
the bet store, which is kept as an explicit entry list (each key occurs
at most once; `bput` removes any stale entry) so that the global sum of
recorded bet amounts is definable.
-/

namespace Karera

/-! ## Constants (src/lib.rs lines 8-12) -/

def RACE_DURATION_BLOCKS : Nat := 100
def HORSES_PER_RACE : Nat := 6
def TOTAL_RACES : Nat := 5
def FINISH_LINE : Nat := 1000

/-- `2^32`, the modulus of Rust `u32` arithmetic. -/
def W32 : Nat := 2 ^ 32

/-- `2^128`, the modulus of Rust `u128` (`Balance`) arithmetic. -/
def W128 : Nat := 2 ^ 128

/-! ## Data model (src/lib.rs lines 14-64) -/

inductive RaceStatus where
  | Pending
  | Active
  | Finished
deriving DecidableEq

structure Horse where
  id : Nat
  position : Nat
  finished : Bool
  finish_time : Option Nat
deriving DecidableEq

structure Race where
  id : Nat
  status : RaceStatus
  start_block : Nat
  current_block : Nat
  winner : Option Nat
  rankings : List Nat
deriving DecidableEq

structure Bet where
  bettor : Nat
  race_id : Nat
  horse_id : Nat
  amount : Nat
deriving DecidableEq

inductive Error where
  | RaceNotFound
  | RaceNotActive
  | RaceAlreadyStarted
  | RaceNotFinished
  | MaxRacesReached
  | InvalidHorse
  | BettingClosed
  | InvalidBetAmount
  | NoWinner
  | NoWinningBets
  | AlreadyClaimed
  | TransferFailed
  | Unauthorized
deriving DecidableEq

/-- Key of the bet store: `(bettor, race_id, bet_index)`. -/
abbrev BetKey := Nat × Nat × Nat

/-- The contract storage (`KareraPlatform` struct). `AccountId` is `Nat`. -/
structure State where
  owner : Nat
  races : Nat → Option Race
  current_race_id : Nat
  horses : Nat × Nat → Option Horse
  bet_count : Nat × Nat → Option Nat
  bets : List (BetKey × Bet)
  total_pool : Nat → Option Nat
  horse_pools : Nat × Nat → Option Nat
  payouts_claimed : Nat × Nat → Option Bool

/-- Per-call environment: the host-provided inputs an `#[ink(message)]`
call observes, plus the success of the one `env().transfer` request. -/
structure Env where
  caller : Nat
  transferred_value : Nat
  block_number : Nat
  block_timestamp : Nat
  transfer_ok : Bool

/-! ## Map helpers -/

/-- `Mapping::insert` on a function-backed map. -/
def fupd {α β : Type} [DecidableEq α] (m : α → Option β) (k : α) (v : β) :
    α → Option β :=
  fun q => if q = k then some v else m q

/-- `Mapping::get` on the list-backed bet store. -/
def bget (m : List (BetKey × Bet)) (k : BetKey) : Option Bet :=
  (m.find? (fun e => decide (e.1 = k))).map (·.2)

/-- `Mapping::insert` on the list-backed bet store: each key occurs at
most once, so the new entry replaces any stale entry at the same key. -/
def bput (m : List (BetKey × Bet)) (k : BetKey) (v : Bet) :
    List (BetKey × Bet) :=
  (k, v) :: m.filter (fun e => decide (e.1 ≠ k))

/-! ## Constructor (src/lib.rs lines 99-112) -/

def initState (owner : Nat) : State where
  owner := owner
  races := fun _ => none
  current_race_id := 0
  horses := fun _ => none
  bet_count := fun _ => none
  bets := []
  total_pool := fun _ => none
  horse_pools := fun _ => none
  payouts_claimed := fun _ => none

/-! ## create_race (src/lib.rs lines 114-147) -/

def create_race (s : State) (_env : Env) : State × Except Error Nat :=
  if s.current_race_id ≥ TOTAL_RACES then
    (s, .error .MaxRacesReached)
  else
    let race_id := s.current_race_id
    let horses' := (List.range HORSES_PER_RACE).foldl
      (fun m i =>
        fupd m (race_id, i)
          { id := i, position := 0, finished := false, finish_time := none })
      s.horses
    let race : Race :=
      { id := race_id, status := .Pending, start_block := 0,
        current_block := 0, winner := none, rankings := [] }
    ({ s with
        horses := horses'
        races := fupd s.races race_id race
        current_race_id := s.current_race_id + 1 },
      .ok race_id)

/-! ## start_race (src/lib.rs lines 149-176) -/

def start_race (s : State) (env : Env) (race_id : Nat) :
    State × Except Error Unit :=
  if env.caller ≠ s.owner then
    (s, .error .Unauthorized)
  else
    match s.races race_id with
    | none => (s, .error .RaceNotFound)
    | some race =>
      if race.status ≠ .Pending then
        (s, .error .RaceAlreadyStarted)
      else
        let current_block := env.block_number % W32
        let race' := { race with
          status := RaceStatus.Active
          start_block := current_block
          current_block := current_block }
        ({ s with races := fupd s.races race_id race' }, .ok ())

/-! ## pseudo_random (src/lib.rs lines 429-439) -/

/-- The LCG: `(a.wrapping_mul(hash).wrapping_add(c)) % 100` with
`hash = timestamp as u32 ^ block ^ seed`. -/
def pseudo_random (env : Env) (seed : Nat) (block : Nat) : Nat :=
  let hash := Nat.xor (Nat.xor (env.block_timestamp % W32) block) seed
  (1664525 * hash + 1013904223) % W32 % 100

/-- The per-tick acceleration of a horse
(src/lib.rs line 203: `self.pseudo_random(horse.id, current_block) % 21 + 15`). -/
def acceleration (env : Env) (horse_id : Nat) (current_block : Nat) : Nat :=
  pseudo_random env horse_id current_block % 21 + 15

/-! ## update_race horse loop (src/lib.rs lines 196-220)

The loop carries the horse store, the race's incrementally built
`rankings`, and the `all_finished` flag.  A missing or already-finished
horse is skipped (and leaves `all_finished` alone, exactly as in the
source, where `all_finished` starts `true`). -/

def updateHorses (env : Env) (race_id current_block blocks_elapsed : Nat) :
    List Nat → ((Nat × Nat → Option Horse) × List Nat × Bool) →
    ((Nat × Nat → Option Horse) × List Nat × Bool)
  | [], acc => acc
  | i :: rest, (hmap, rks, allFin) =>
    match hmap (race_id, i) with
    | none => updateHorses env race_id current_block blocks_elapsed rest
        (hmap, rks, allFin)
    | some horse =>
      if horse.finished then
        updateHorses env race_id current_block blocks_elapsed rest
          (hmap, rks, allFin)
      else
        let accel := acceleration env horse.id current_block
        let pos := (horse.position + accel) % W32
        if pos ≥ FINISH_LINE then
          let horse' := { horse with
            position := FINISH_LINE
            finished := true
            finish_time := some blocks_elapsed }
          updateHorses env race_id current_block blocks_elapsed rest
            (fupd hmap (race_id, i) horse', rks ++ [horse.id], allFin)
        else
          let horse' := { horse with position := pos }
          updateHorses env race_id current_block blocks_elapsed rest
            (fupd hmap (race_id, i) horse', rks, false)

/-! ## finish_race (src/lib.rs lines 239-281) -/

/-- Rust `Nat::cmp` (`a.cmp(&b)`). -/
def ncmp (a b : Nat) : Ordering :=
  if a < b then .lt else if a = b then .eq else .gt

/-- Rust `Option<u32>::cmp`: `None` is less than `Some _`. -/
def ocmp : Option Nat → Option Nat → Ordering
  | none, none => .eq
  | none, some _ => .lt
  | some _, none => .gt
  | some a, some b => ncmp a b

/-- The comparator passed to `sort_by` (src/lib.rs lines 255-262). -/
def cmpHorse (a b : Horse) : Ordering :=
  match a.finished, b.finished with
  | true, true => ocmp a.finish_time b.finish_time
  | true, false => .lt
  | false, true => .gt
  | false, false => ncmp b.position a.position

/-- Insert `x` after every element the comparator does not place strictly
after `x`.  Inserting the input elements left to right with this function
is a stable sort, hence extensionally the Rust stable `sort_by`. -/
def insertH (x : Horse) : List Horse → List Horse
  | [] => [x]
  | y :: ys =>
    if cmpHorse y x ≠ .gt then y :: insertH x ys else x :: y :: ys

/-- Rust `Vec::sort_by` with `cmpHorse`: `sort_by` is a stable sort, and a
stable sort's output (sorted, with comparator-equal elements kept in
input order) is unique, so any stable sort models it. -/
def stableSort (l : List Horse) : List Horse :=
  l.foldl (fun acc x => insertH x acc) []

/-- The horse records of a race collected in horse-id order
(src/lib.rs lines 248-253, also `get_all_horses`). -/
def horsesVec (s : State) (race_id : Nat) : List Horse :=
  (List.range HORSES_PER_RACE).filterMap (fun i => s.horses (race_id, i))

def finish_race (s : State) (race_id : Nat) :
    Option (State × Except Error Unit) :=
  match s.races race_id with
  | none => some (s, .error .RaceNotFound)
  | some race =>
    if race.status ≠ .Active then
      some (s, .error .RaceNotActive)
    else
      let sorted := stableSort (horsesVec s race_id)
      let rankings := sorted.map Horse.id
      match rankings with
      | [] => none
      | w :: _ =>
        let race' := { race with
          rankings := rankings
          winner := some w
          status := RaceStatus.Finished }
        some ({ s with races := fupd s.races race_id race' }, .ok ())

/-! ## update_race (src/lib.rs lines 178-237) -/

def update_race (s : State) (env : Env) (race_id : Nat) :
    Option (State × Except Error Unit) :=
  match s.races race_id with
  | none => some (s, .error .RaceNotFound)
  | some race =>
    if race.status ≠ .Active then
      some (s, .error .RaceNotActive)
    else
      let current_block := env.block_number % W32
      let blocks_elapsed :=
        (current_block + W32 - race.start_block % W32) % W32
      if blocks_elapsed ≥ RACE_DURATION_BLOCKS then
        finish_race s race_id
      else
        let r := updateHorses env race_id current_block blocks_elapsed
          (List.range HORSES_PER_RACE) (s.horses, race.rankings, true)
        let race1 := { race with
          rankings := r.2.1
          current_block := current_block }
        let s1 := { s with
          horses := r.1
          races := fupd s.races race_id race1 }
        if r.2.2 then
          match finish_race s1 race_id with
          | none => none
          | some (s2, .error e) => some (s2, .error e)
          | some (s2, .ok _) => some (s2, .ok ())
        else
          some (s1, .ok ())

/-! ## place_bet (src/lib.rs lines 283-330) -/

def place_bet (s : State) (env : Env) (race_id horse_id : Nat) :
    State × Except Error Unit :=
  match s.races race_id with
  | none => (s, .error .RaceNotFound)
  | some race =>
    if race.status ≠ .Pending then
      (s, .error .BettingClosed)
    else if horse_id ≥ HORSES_PER_RACE then
      (s, .error .InvalidHorse)
    else
      let bettor := env.caller
      let amount := env.transferred_value % W128
      if amount = 0 then
        (s, .error .InvalidBetAmount)
      else
        let bet : Bet :=
          { bettor := bettor, race_id := race_id,
            horse_id := horse_id, amount := amount }
        let count := (s.bet_count (bettor, race_id)).getD 0
        ({ s with
            bets := bput s.bets (bettor, race_id, count) bet
            bet_count := fupd s.bet_count (bettor, race_id) (count + 1)
            total_pool := fupd s.total_pool race_id
              ((s.total_pool race_id).getD 0 + amount)
            horse_pools := fupd s.horse_pools (race_id, horse_id)
              ((s.horse_pools (race_id, horse_id)).getD 0 + amount) },
          .ok ())

/-! ## claim_winnings (src/lib.rs lines 332-385) -/

/-- The scan of the caller's own bet sequence summing the amounts placed
on the winning horse (src/lib.rs lines 351-360). -/
def winningStake (s : State) (caller race_id winner_horse : Nat) : Nat :=
  let cnt := (s.bet_count (caller, race_id)).getD 0
  (List.range cnt).foldl
    (fun acc i =>
      match bget s.bets (caller, race_id, i) with
      | some bet =>
        if bet.horse_id = winner_horse then acc + bet.amount else acc
      | none => acc)
    0

def claim_winnings (s : State) (env : Env) (race_id : Nat) :
    State × Except Error Nat :=
  match s.races race_id with
  | none => (s, .error .RaceNotFound)
  | some race =>
    if race.status ≠ .Finished then
      (s, .error .RaceNotFinished)
    else
      let caller := env.caller
      let claimed := (s.payouts_claimed (caller, race_id)).getD false
      if claimed then
        (s, .error .AlreadyClaimed)
      else
        match race.winner with
        | none => (s, .error .NoWinner)
        | some winner_horse =>
          let total_bet := winningStake s caller race_id winner_horse
          if total_bet = 0 then
            (s, .error .NoWinningBets)
          else
            let total_pool := (s.total_pool race_id).getD 0
            let winning_pool :=
              (s.horse_pools (race_id, winner_horse)).getD 0
            if winning_pool = 0 then
              (s, .error .NoWinningBets)
            else
              let payout := total_bet * total_pool / winning_pool
              let s' := { s with
                payouts_claimed :=
                  fupd s.payouts_claimed (caller, race_id) true }
              if env.transfer_ok then
                (s', .ok payout)
              else
                (s', .error .TransferFailed)

/-! ## The public operation surface -/

inductive Op where
  | create
  | start (race_id : Nat)
  | update (race_id : Nat)
  | place (race_id horse_id : Nat)
  | claim (race_id : Nat)
deriving DecidableEq

/-- Run one public operation, forgetting the returned value but keeping
the error (for state-evolution claims). `none` is a trap. -/
def run (op : Op) (s : State) (env : Env) :
    Option (State × Except Error Unit) :=
  match op with
  | .create =>
    let r := create_race s env
    some (r.1, r.2.map fun _ => ())
  | .start rid => some (start_race s env rid)
  | .update rid => update_race s env rid
  | .place rid hid => some (place_bet s env rid hid)
  | .claim rid =>
    let r := claim_winnings s env rid
    some (r.1, r.2.map fun _ => ())

/-! ## The u128-wrapped forms of the overflow-sensitive spots (claim C5) -/

/-- The `total + amount` / `horse_total + amount` additions of `place_bet`
(src/lib.rs lines 316-320) performed at `u128` width. -/
def poolAddU128 (total amount : Nat) : Nat := (total + amount) % W128

/-- The `(total_bet * total_pool) / winning_pool` payout of
`claim_winnings` (src/lib.rs line 374) with the intermediate product
performed at `u128` width. -/
def payoutMulU128 (total_bet total_pool winning_pool : Nat) : Nat :=
  total_bet * total_pool % W128 / winning_pool

end Karera

namespace Karera

/-! ## Small map lemmas -/

theorem fupd_same {α β : Type} [DecidableEq α] (m : α → Option β) (k : α)
    (v : β) : fupd m k v k = some v := by
  simp [fupd]

theorem fupd_ne {α β : Type} [DecidableEq α] (m : α → Option β) {k q : α}
    (v : β) (h : q ≠ k) : fupd m k v q = m q := by
  simp [fupd, h]

/-! ## Claim C9 -/

/-- C9 counterexample: at block-timestamp 38096, block 0, horse 0, the
per-tick acceleration is 35, outside the claimed closed range [15, 34]. -/
theorem c9_counterexample :
    acceleration
      { caller := 0, transferred_value := 0, block_number := 0,
        block_timestamp := 38096, transfer_ok := true } 0 0 = 35 ∧
    ¬ (acceleration
      { caller := 0, transferred_value := 0, block_number := 0,
        block_timestamp := 38096, transfer_ok := true } 0 0 ≤ 34) := by
  constructor
  · rfl
  · decide

/-- C9 (amended): on every progression tick, each unfinished horse's
per-tick acceleration `15 + (v mod 21)` lies in the closed range
[15, 35] distance units. -/
theorem c9_acceleration_range (env : Env) (horse_id current_block : Nat) :
    15 ≤ acceleration env horse_id current_block ∧
    acceleration env horse_id current_block ≤ 35 := by
  unfold acceleration
  have h : pseudo_random env horse_id current_block % 21 < 21 :=
    Nat.mod_lt _ (by norm_num)
  omega

/-! ## Claim C5 -/

/-- C5: the pool additions of `place_bet` and the payout's intermediate
product in `claim_winnings` never wrap silently: `Balance` is `u128`, and
for realistic stake/pool magnitudes (every pool total below `2^64`, far
above any chain's total issuance in `Balance` units) the `u128`
computations equal the exact integer results, so no overflow is reachable
before the division.  The caller's winning stake is bounded by the total
pool (pool conservation), which bounds the intermediate product. -/
theorem c5_no_silent_wrap :
    (∀ total amount : Nat, total < 2 ^ 64 → amount < 2 ^ 64 →
      poolAddU128 total amount = total + amount) ∧
    (∀ total_bet total_pool winning_pool : Nat,
      total_bet ≤ total_pool → total_pool < 2 ^ 64 →
      payoutMulU128 total_bet total_pool winning_pool =
        total_bet * total_pool / winning_pool) := by
  constructor
  · intro t a ht ha
    unfold poolAddU128 W128
    apply Nat.mod_eq_of_lt
    calc t + a < 2 ^ 64 + 2 ^ 64 := by omega
    _ ≤ 2 ^ 128 := by norm_num
  · intro tb tp wp htb htp
    unfold payoutMulU128 W128
    congr 1
    apply Nat.mod_eq_of_lt
    calc tb * tp ≤ tp * tp := Nat.mul_le_mul_right _ htb
    _ < 2 ^ 64 * 2 ^ 64 := by
        apply Nat.mul_lt_mul_of_lt_of_le htp (Nat.le_of_lt htp)
        norm_num
    _ = 2 ^ 128 := by norm_num

/-- C5 witness: the `u128` forms agree with the exact values at concrete
realistic inputs. -/
theorem c5_witness :
    poolAddU128 (2 ^ 60) (2 ^ 60) = 2 ^ 60 + 2 ^ 60 ∧
    payoutMulU128 100 400 100 = 100 * 400 / 100 :=
  ⟨c5_no_silent_wrap.1 _ _ (by norm_num) (by norm_num),
   c5_no_silent_wrap.2 _ _ _ (by norm_num) (by norm_num)⟩

end Karera

namespace Karera

/-! ## Claim C1 -/

/-- C1: for a Finished race with winner `w` and a caller whose summed
stake on `w` (the sum of the caller's own recorded bet amounts placed on
`w` only, which is exactly what the scan `winningStake` computes) is
positive, `claim_winnings` succeeds and returns exactly
`⌊stake * total_pool / horse_pool(race, w)⌋`.  The hypotheses `hclaim`
(the caller has not yet claimed), `hpool` (the winning-horse pool is at
least the caller's stake on it, a consequence of pool conservation in
every state reachable by the contract's operations) and `htr` (the value
transfer succeeds) make the ambient preconditions of a first successful
claim explicit. -/
theorem c1_payout_formula (s : State) (env : Env) (race_id w : Nat)
    (race : Race)
    (hrace : s.races race_id = some race)
    (hfin : race.status = .Finished)
    (hw : race.winner = some w)
    (hclaim : (s.payouts_claimed (env.caller, race_id)).getD false = false)
    (hstake : 0 < winningStake s env.caller race_id w)
    (hpool : winningStake s env.caller race_id w ≤
      (s.horse_pools (race_id, w)).getD 0)
    (htr : env.transfer_ok = true) :
    claim_winnings s env race_id =
      ({ s with
          payouts_claimed := fupd s.payouts_claimed (env.caller, race_id) true },
       .ok (winningStake s env.caller race_id w *
            (s.total_pool race_id).getD 0 /
            (s.horse_pools (race_id, w)).getD 0)) := by
  have hs0 : winningStake s env.caller race_id w ≠ 0 := by omega
  have hp0 : (s.horse_pools (race_id, w)).getD 0 ≠ 0 := by omega
  simp only [claim_winnings, hrace, hfin, hclaim, hw, htr, hs0, hp0,
    ne_eq, not_true_eq_false, not_false_eq_true, if_false, if_true,
    Bool.false_eq_true, ite_false, ite_true]

end Karera

namespace Karera

/-! ## Concrete scenario used by witnesses

Race 0 is created by owner 1; bettor 7 stakes 100 on horse 0 and bettor 8
stakes 300 on horse 4; the race is started at block 5 and updated at
block 205, which exceeds the duration limit and finishes it immediately
with all horses still at position 0, so the ranking falls back to horse
id order and horse 0 wins. -/

def wEnv (who amt block : Nat) : Env :=
  { caller := who, transferred_value := amt, block_number := block,
    block_timestamp := 0, transfer_ok := true }

def wS1 : State := (create_race (initState 1) (wEnv 1 0 0)).1
def wS2 : State := (place_bet wS1 (wEnv 7 100 0) 0 0).1
def wS3 : State := (place_bet wS2 (wEnv 8 300 0) 0 4).1
def wS4 : State := (start_race wS3 (wEnv 1 0 5) 0).1
def wS5 : State := ((update_race wS4 (wEnv 1 0 205) 0).getD (wS4, .ok ())).1

end Karera

namespace Karera

/-- C1 witness: in the concrete scenario, bettor 7 (stake 100 on winning
horse 0, total pool 400, winning-horse pool 100) is paid
`⌊100 * 400 / 100⌋ = 400`. -/
theorem c1_witness :
    (0 < winningStake wS5 7 0 0 ∧ (wS5.payouts_claimed (7, 0)).getD false = false) ∧
    (claim_winnings wS5 (wEnv 7 0 0) 0).2 = .ok 400 := by
  refine ⟨⟨by decide, by decide⟩, ?_⟩
  have h := c1_payout_formula wS5 (wEnv 7 0 0) 0 0
    { id := 0, status := .Finished, start_block := 5, current_block := 5,
      winner := some 0, rankings := [0, 1, 2, 3, 4, 5] }
    (by decide) rfl rfl (by decide) (by decide) (by decide) rfl
  rw [h]
  rfl

end Karera

namespace Karera

/-! ## Frame lemmas: which fields each operation leaves untouched -/

theorem create_race_frame (s : State) (env : Env) :
    (create_race s env).1.owner = s.owner ∧
    (create_race s env).1.bet_count = s.bet_count ∧
    (create_race s env).1.bets = s.bets ∧
    (create_race s env).1.total_pool = s.total_pool ∧
    (create_race s env).1.horse_pools = s.horse_pools ∧
    (create_race s env).1.payouts_claimed = s.payouts_claimed := by
  unfold create_race
  dsimp only
  split <;> simp

theorem start_race_frame (s : State) (env : Env) (race_id : Nat) :
    (start_race s env race_id).1.owner = s.owner ∧
    (start_race s env race_id).1.current_race_id = s.current_race_id ∧
    (start_race s env race_id).1.horses = s.horses ∧
    (start_race s env race_id).1.bet_count = s.bet_count ∧
    (start_race s env race_id).1.bets = s.bets ∧
    (start_race s env race_id).1.total_pool = s.total_pool ∧
    (start_race s env race_id).1.horse_pools = s.horse_pools ∧
    (start_race s env race_id).1.payouts_claimed = s.payouts_claimed := by
  unfold start_race
  dsimp only
  split
  · simp
  · split
    · simp
    · split <;> simp

theorem finish_race_frame (s : State) (race_id : Nat) (s' : State)
    (r : Except Error Unit) (h : finish_race s race_id = some (s', r)) :
    s'.owner = s.owner ∧ s'.current_race_id = s.current_race_id ∧
    s'.horses = s.horses ∧ s'.bet_count = s.bet_count ∧ s'.bets = s.bets ∧
    s'.total_pool = s.total_pool ∧ s'.horse_pools = s.horse_pools ∧
    s'.payouts_claimed = s.payouts_claimed := by
  unfold finish_race at h
  dsimp only at h
  split at h
  · simp only [Option.some.injEq, Prod.mk.injEq] at h
    obtain ⟨h1, _⟩ := h
    subst h1
    exact ⟨rfl, rfl, rfl, rfl, rfl, rfl, rfl, rfl⟩
  · split at h
    · simp only [Option.some.injEq, Prod.mk.injEq] at h
      obtain ⟨h1, _⟩ := h
      subst h1
      exact ⟨rfl, rfl, rfl, rfl, rfl, rfl, rfl, rfl⟩
    · split at h
      · exact absurd h (by simp)
      · simp only [Option.some.injEq, Prod.mk.injEq] at h
        obtain ⟨h1, _⟩ := h
        subst h1
        exact ⟨rfl, rfl, rfl, rfl, rfl, rfl, rfl, rfl⟩

theorem update_race_frame (s : State) (env : Env) (race_id : Nat)
    (s' : State) (r : Except Error Unit)
    (h : update_race s env race_id = some (s', r)) :
    s'.owner = s.owner ∧ s'.current_race_id = s.current_race_id ∧
    s'.bet_count = s.bet_count ∧ s'.bets = s.bets ∧
    s'.total_pool = s.total_pool ∧ s'.horse_pools = s.horse_pools ∧
    s'.payouts_claimed = s.payouts_claimed := by
  unfold update_race at h
  dsimp only at h
  split at h
  · simp only [Option.some.injEq, Prod.mk.injEq] at h
    obtain ⟨h1, _⟩ := h
    subst h1
    exact ⟨rfl, rfl, rfl, rfl, rfl, rfl, rfl⟩
  · split at h
    · simp only [Option.some.injEq, Prod.mk.injEq] at h
      obtain ⟨h1, _⟩ := h
      subst h1
      exact ⟨rfl, rfl, rfl, rfl, rfl, rfl, rfl⟩
    · split at h
      · have hf := finish_race_frame _ _ _ _ h
        exact ⟨hf.1, hf.2.1, hf.2.2.2.1, hf.2.2.2.2.1, hf.2.2.2.2.2.1,
          hf.2.2.2.2.2.2.1, hf.2.2.2.2.2.2.2⟩
      · split at h
        · split at h
          · exact absurd h (by simp)
          · rename_i s2 e heq
            simp only [Option.some.injEq, Prod.mk.injEq] at h
            obtain ⟨h1, _⟩ := h
            subst h1
            have hf := finish_race_frame _ _ _ _ heq
            exact ⟨hf.1, hf.2.1, hf.2.2.2.1, hf.2.2.2.2.1, hf.2.2.2.2.2.1,
              hf.2.2.2.2.2.2.1, hf.2.2.2.2.2.2.2⟩
          · rename_i s2 a heq
            simp only [Option.some.injEq, Prod.mk.injEq] at h
            obtain ⟨h1, _⟩ := h
            subst h1
            have hf := finish_race_frame _ _ _ _ heq
            exact ⟨hf.1, hf.2.1, hf.2.2.2.1, hf.2.2.2.2.1, hf.2.2.2.2.2.1,
              hf.2.2.2.2.2.2.1, hf.2.2.2.2.2.2.2⟩
        · simp only [Option.some.injEq, Prod.mk.injEq] at h
          obtain ⟨h1, _⟩ := h
          subst h1
          exact ⟨rfl, rfl, rfl, rfl, rfl, rfl, rfl⟩

theorem place_bet_frame (s : State) (env : Env) (race_id horse_id : Nat) :
    (place_bet s env race_id horse_id).1.owner = s.owner ∧
    (place_bet s env race_id horse_id).1.races = s.races ∧
    (place_bet s env race_id horse_id).1.current_race_id = s.current_race_id ∧
    (place_bet s env race_id horse_id).1.horses = s.horses ∧
    (place_bet s env race_id horse_id).1.payouts_claimed = s.payouts_claimed := by
  unfold place_bet
  dsimp only
  split
  · simp
  · split
    · simp
    · split
      · simp
      · split <;> simp

theorem claim_winnings_frame (s : State) (env : Env) (race_id : Nat) :
    (claim_winnings s env race_id).1.owner = s.owner ∧
    (claim_winnings s env race_id).1.races = s.races ∧
    (claim_winnings s env race_id).1.current_race_id = s.current_race_id ∧
    (claim_winnings s env race_id).1.horses = s.horses ∧
    (claim_winnings s env race_id).1.bet_count = s.bet_count ∧
    (claim_winnings s env race_id).1.bets = s.bets ∧
    (claim_winnings s env race_id).1.total_pool = s.total_pool ∧
    (claim_winnings s env race_id).1.horse_pools = s.horse_pools := by
  unfold claim_winnings
  dsimp only
  split
  · simp
  · split
    · simp
    · split
      · simp
      · split
        · simp
        · split
          · simp
          · split
            · simp
            · split <;> simp

end Karera

namespace Karera

/-- The claim flag is monotone under `claim_winnings`: once `some true`,
it stays `some true` (the only write is `insert(..., true)`). -/
theorem claim_flag_mono (s : State) (env : Env) (race_id : Nat)
    (k : Nat × Nat) (h : s.payouts_claimed k = some true) :
    (claim_winnings s env race_id).1.payouts_claimed k = some true := by
  unfold claim_winnings
  dsimp only
  repeat' split
  all_goals
    first
    | exact h
    | (by_cases hk : k = (env.caller, race_id)
       · subst hk
         simp [fupd]
       · simp only [fupd, if_neg hk]
         exact h)

/-! ## Claim C3 -/

/-- C3: (1) whenever a `claim_winnings` call reaches the flag-set point —
exactly the calls returning `Ok payout` or `Err TransferFailed` — the
caller's claim flag for that race is `true` afterwards and the race store
is untouched (so the race stays `Finished`); (2) any `claim_winnings`
call on a `Finished` race whose caller's flag is already set fails with
`AlreadyClaimed` and leaves the state exactly unchanged; (3) no public
operation ever turns a set flag back off.  Together: the flag is set at
most once, is never cleared, and every call after the flag-setting one
fails `AlreadyClaimed`. -/
theorem c3_claim_at_most_once :
    (∀ s env race_id,
      ((∃ p, (claim_winnings s env race_id).2 = Except.ok p) ∨
        (claim_winnings s env race_id).2 = Except.error Error.TransferFailed) →
      (claim_winnings s env race_id).1.payouts_claimed
        (env.caller, race_id) = some true ∧
      (claim_winnings s env race_id).1.races = s.races) ∧
    (∀ s env race_id race,
      s.races race_id = some race → race.status = RaceStatus.Finished →
      s.payouts_claimed (env.caller, race_id) = some true →
      claim_winnings s env race_id = (s, Except.error Error.AlreadyClaimed)) ∧
    (∀ op s env s' r k, run op s env = some (s', r) →
      s.payouts_claimed k = some true → s'.payouts_claimed k = some true) := by
  refine ⟨?_, ?_, ?_⟩
  · intro s env race_id h
    refine ⟨?_, (claim_winnings_frame s env race_id).2.1⟩
    revert h
    unfold claim_winnings
    dsimp only
    repeat' split
    all_goals intro h
    all_goals
      first
      | (simp [fupd]; done)
      | ((rcases h with (⟨p, hp⟩ | hp) <;> simp at hp); done)
  · intro s env race_id race hrace hfin hflag
    simp only [claim_winnings, hrace, hfin, hflag, ne_eq, not_true_eq_false,
      if_false, Option.getD_some, if_true, ite_false, ite_true]
  · intro op s env s' r k hrun hflag
    cases op with
    | create =>
      simp only [run, Option.some.injEq, Prod.mk.injEq] at hrun
      rw [← hrun.1, (create_race_frame s env).2.2.2.2.2]
      exact hflag
    | start rid =>
      simp only [run, Option.some.injEq] at hrun
      have h1 : s' = (start_race s env rid).1 := by rw [hrun]
      rw [h1, (start_race_frame s env rid).2.2.2.2.2.2.2]
      exact hflag
    | update rid =>
      simp only [run] at hrun
      rw [(update_race_frame s env rid s' r hrun).2.2.2.2.2.2]
      exact hflag
    | place rid hid =>
      simp only [run, Option.some.injEq] at hrun
      have h1 : s' = (place_bet s env rid hid).1 := by rw [hrun]
      rw [h1, (place_bet_frame s env rid hid).2.2.2.2]
      exact hflag
    | claim rid =>
      simp only [run, Option.some.injEq, Prod.mk.injEq] at hrun
      rw [← hrun.1]
      exact claim_flag_mono s env rid k hflag

end Karera

namespace Karera

/-- Environment of a claim call by bettor 7 whose value transfer fails. -/
def wEnvF : Env :=
  { caller := 7, transferred_value := 0, block_number := 0,
    block_timestamp := 0, transfer_ok := false }

/-- State after bettor 7's claim on race 0 fails with `TransferFailed`. -/
def wS6 : State := (claim_winnings wS5 wEnvF 0).1

/-- C3 witness: in the concrete scenario, bettor 7's claim fails
`TransferFailed` yet sets the claim flag, and the bettor's next claim
fails `AlreadyClaimed` with the state unchanged. -/
theorem c3_witness :
    (claim_winnings wS5 wEnvF 0).2 = Except.error Error.TransferFailed ∧
    wS6.payouts_claimed (7, 0) = some true ∧
    claim_winnings wS6 (wEnv 7 0 0) 0 = (wS6, Except.error Error.AlreadyClaimed) := by
  refine ⟨rfl, ?_, ?_⟩
  · exact (c3_claim_at_most_once.1 wS5 wEnvF 0 (Or.inr rfl)).1
  · exact c3_claim_at_most_once.2.1 wS6 (wEnv 7 0 0) 0
      { id := 0, status := .Finished, start_block := 5, current_block := 5,
        winner := some 0, rankings := [0, 1, 2, 3, 4, 5] }
      (by decide) rfl (by decide)

end Karera

namespace Karera

/-- `finish_race` on a race that exists and is `Active` cannot return an
error (its two error branches are exactly the missing-race and
wrong-status checks). -/
theorem finish_race_no_error (s : State) (race_id : Nat) (race : Race)
    (hrace : s.races race_id = some race)
    (hA : race.status = RaceStatus.Active) (s2 : State) (e : Error) :
    finish_race s race_id ≠ some (s2, Except.error e) := by
  intro h
  unfold finish_race at h
  rw [hrace] at h
  simp only [hA, ne_eq, not_true_eq_false, if_false, ite_false] at h
  split at h
  · exact absurd h (by simp)
  · simp at h

/-- Every error return of `claim_winnings` leaves the state unchanged,
except `TransferFailed`, which leaves it unchanged apart from the
caller's claim flag. -/
theorem claim_error_shape (s : State) (env : Env) (race_id : Nat)
    (e : Error) (h : (claim_winnings s env race_id).2 = Except.error e) :
    (claim_winnings s env race_id).1 = s ∨
    (e = Error.TransferFailed ∧
     (claim_winnings s env race_id).1 =
       { s with
         payouts_claimed := fupd s.payouts_claimed (env.caller, race_id) true }) := by
  revert h
  unfold claim_winnings
  dsimp only
  repeat' split
  all_goals intro h
  all_goals
    first
    | (exact Or.inl rfl)
    | (simp at h; done)
    | (refine Or.inr ⟨?_, rfl⟩
       injection h with h2
       exact h2.symm)

/-! ## Claim C4 -/

/-- C4 counterexample: in the concrete scenario, bettor 7's claim with a
failing value transfer returns `Err(TransferFailed)` yet the state is not
what it was before the call — the claim flag has been set.  This refutes
the claim that every error return leaves the entire contract state
exactly unchanged. -/
theorem c4_counterexample :
    (claim_winnings wS5 wEnvF 0).2 = Except.error Error.TransferFailed ∧
    (claim_winnings wS5 wEnvF 0).1.payouts_claimed (7, 0) ≠
      wS5.payouts_claimed (7, 0) := by
  exact ⟨rfl, by decide⟩

/-- C4 (amended): for every public operation and every input, an error
return leaves the contract state exactly what it was before the call —
with the single exception of `claim_winnings` returning `TransferFailed`,
which leaves the state unchanged except that the caller's claim flag for
that race has been set (the flag is written before the transfer is
attempted). -/
theorem c4_error_no_mutation (op : Op) (s : State) (env : Env) (s' : State)
    (e : Error) (h : run op s env = some (s', Except.error e)) :
    s' = s ∨
    (∃ race_id, op = Op.claim race_id ∧ e = Error.TransferFailed ∧
      s' = { s with
        payouts_claimed := fupd s.payouts_claimed (env.caller, race_id) true }) := by
  cases op with
  | create =>
    unfold run create_race at h
    dsimp only at h
    split at h
    · simp only [Option.some.injEq, Prod.mk.injEq] at h
      exact Or.inl h.1.symm
    · simp [Except.map] at h
  | start rid =>
    unfold run start_race at h
    dsimp only at h
    split at h
    · simp only [Option.some.injEq, Prod.mk.injEq] at h
      exact Or.inl h.1.symm
    · split at h
      · simp only [Option.some.injEq, Prod.mk.injEq] at h
        exact Or.inl h.1.symm
      · split at h
        · simp only [Option.some.injEq, Prod.mk.injEq] at h
          exact Or.inl h.1.symm
        · simp at h
  | update rid =>
    unfold run update_race at h
    dsimp only at h
    split at h
    · simp only [Option.some.injEq, Prod.mk.injEq] at h
      exact Or.inl h.1.symm
    · split at h
      · simp only [Option.some.injEq, Prod.mk.injEq] at h
        exact Or.inl h.1.symm
      · rename_i race hrace hActive
        have hA : race.status = RaceStatus.Active := by
          by_contra hc
          exact hActive hc
        split at h
        · exact absurd h (finish_race_no_error s rid race hrace hA s' e)
        · split at h
          · split at h
            · exact absurd h (by simp)
            · rename_i s2 e2 heq
              exact absurd heq
                (finish_race_no_error _ rid _ (fupd_same _ _ _)
                  (by exact hA) s2 e2)
            · simp at h
          · simp at h
  | place rid hid =>
    unfold run place_bet at h
    dsimp only at h
    split at h
    · simp only [Option.some.injEq, Prod.mk.injEq] at h
      exact Or.inl h.1.symm
    · split at h
      · simp only [Option.some.injEq, Prod.mk.injEq] at h
        exact Or.inl h.1.symm
      · split at h
        · simp only [Option.some.injEq, Prod.mk.injEq] at h
          exact Or.inl h.1.symm
        · split at h
          · simp only [Option.some.injEq, Prod.mk.injEq] at h
            exact Or.inl h.1.symm
          · simp at h
  | claim rid =>
    simp only [run, Option.some.injEq, Prod.mk.injEq] at h
    obtain ⟨h1, h2⟩ := h
    have hx : (claim_winnings s env rid).2 = Except.error e := by
      cases hcw : (claim_winnings s env rid).2 with
      | ok p => rw [hcw] at h2; simp [Except.map] at h2
      | error e2 => rw [hcw] at h2; simp [Except.map] at h2; rw [h2]
    rcases claim_error_shape s env rid e hx with hl | ⟨he, hr⟩
    · exact Or.inl (h1 ▸ hl)
    · exact Or.inr ⟨rid, rfl, he, h1 ▸ hr⟩

/-- C4 witness for the amended claim: a failing `start_race` (wrong
caller) leaves the state exactly unchanged. -/
theorem c4_witness :
    run (Op.start 0) wS3 (wEnv 2 0 5) =
      some ((start_race wS3 (wEnv 2 0 5) 0).1, Except.error Error.Unauthorized) ∧
    ((start_race wS3 (wEnv 2 0 5) 0).1 = wS3 ∨
     (∃ race_id, Op.start 0 = Op.claim race_id ∧
        Error.Unauthorized = Error.TransferFailed ∧
        (start_race wS3 (wEnv 2 0 5) 0).1 =
          { wS3 with
            payouts_claimed := fupd wS3.payouts_claimed ((wEnv 2 0 5).caller, race_id) true })) :=
  ⟨rfl, c4_error_no_mutation (Op.start 0) wS3 (wEnv 2 0 5) _ _ rfl⟩

end Karera

namespace Karera

/-! ## Claim C10 -/

/-- C10: `finish_race` mutates only the race record of the given race id,
and of that record only `status`, `winner` and `rankings`: every horse
record (with its final position and finish time), every bet, every bet
count, every pool total, every claim flag, every other race record, the
owner and the race counter are exactly unchanged. -/
theorem c10_finish_race_only_race_record (s : State) (race_id : Nat)
    (s' : State) (r : Except Error Unit)
    (h : finish_race s race_id = some (s', r)) :
    s'.owner = s.owner ∧ s'.current_race_id = s.current_race_id ∧
    s'.horses = s.horses ∧ s'.bet_count = s.bet_count ∧ s'.bets = s.bets ∧
    s'.total_pool = s.total_pool ∧ s'.horse_pools = s.horse_pools ∧
    s'.payouts_claimed = s.payouts_claimed ∧
    (∀ rid2, rid2 ≠ race_id → s'.races rid2 = s.races rid2) ∧
    (∀ old, s.races race_id = some old →
      ∃ new, s'.races race_id = some new ∧ new.id = old.id ∧
        new.start_block = old.start_block ∧
        new.current_block = old.current_block) := by
  have hf := finish_race_frame s race_id s' r h
  refine ⟨hf.1, hf.2.1, hf.2.2.1, hf.2.2.2.1, hf.2.2.2.2.1,
    hf.2.2.2.2.2.1, hf.2.2.2.2.2.2.1, hf.2.2.2.2.2.2.2, ?_, ?_⟩
  · unfold finish_race at h
    dsimp only at h
    split at h
    · simp only [Option.some.injEq, Prod.mk.injEq] at h
      obtain ⟨h1, _⟩ := h
      subst h1
      exact fun _ _ => rfl
    · split at h
      · simp only [Option.some.injEq, Prod.mk.injEq] at h
        obtain ⟨h1, _⟩ := h
        subst h1
        exact fun _ _ => rfl
      · split at h
        · exact absurd h (by simp)
        · simp only [Option.some.injEq, Prod.mk.injEq] at h
          obtain ⟨h1, _⟩ := h
          subst h1
          exact fun rid2 hne => fupd_ne _ _ hne
  · unfold finish_race at h
    dsimp only at h
    split at h
    · rename_i heq
      simp only [Option.some.injEq, Prod.mk.injEq] at h
      obtain ⟨h1, _⟩ := h
      subst h1
      intro old hold
      rw [heq] at hold
      cases hold
    · rename_i race heq
      split at h
      · simp only [Option.some.injEq, Prod.mk.injEq] at h
        obtain ⟨h1, _⟩ := h
        subst h1
        intro old hold
        exact ⟨old, hold, rfl, rfl, rfl⟩
      · split at h
        · exact absurd h (by simp)
        · simp only [Option.some.injEq, Prod.mk.injEq] at h
          obtain ⟨h1, _⟩ := h
          subst h1
          intro old hold
          rw [heq] at hold
          injection hold with h3
          subst h3
          exact ⟨_, fupd_same _ _ _, rfl, rfl, rfl⟩

end Karera

namespace Karera

/-- C10 witness: finishing race 0 of the concrete scenario (the timeout
path of the block-205 update is exactly `finish_race wS4 0`) leaves
horses, bets and claim flags untouched. -/
theorem c10_witness :
    finish_race wS4 0 = some (wS5, Except.ok ()) ∧
    wS5.horses = wS4.horses ∧ wS5.bets = wS4.bets ∧
    wS5.payouts_claimed = wS4.payouts_claimed := by
  have h : finish_race wS4 0 = some (wS5, Except.ok ()) := rfl
  have hc := c10_finish_race_only_race_record wS4 0 wS5 (Except.ok ()) h
  exact ⟨h, hc.2.2.1, hc.2.2.2.2.1, hc.2.2.2.2.2.2.2.1⟩

end Karera

namespace Karera

/-! ## Race-store shape of each operation (towards the lifecycle claim) -/

theorem create_race_races (s : State) (env : Env) :
    (s.current_race_id ≥ TOTAL_RACES ∧ (create_race s env).1 = s) ∨
    (s.current_race_id < TOTAL_RACES ∧
     (create_race s env).1.races = fupd s.races s.current_race_id
       { id := s.current_race_id, status := RaceStatus.Pending,
         start_block := 0, current_block := 0, winner := none,
         rankings := [] } ∧
     (create_race s env).1.current_race_id = s.current_race_id + 1) := by
  by_cases hc : s.current_race_id ≥ TOTAL_RACES
  · left
    refine ⟨hc, ?_⟩
    simp [create_race, hc]
  · right
    refine ⟨by omega, ?_, ?_⟩ <;> simp [create_race, hc]

theorem start_race_races (s : State) (env : Env) (race_id : Nat) :
    ((start_race s env race_id).1 = s) ∨
    (∃ race, s.races race_id = some race ∧
     race.status = RaceStatus.Pending ∧
     (start_race s env race_id).1.races = fupd s.races race_id
       { race with
         status := RaceStatus.Active
         start_block := env.block_number % W32
         current_block := env.block_number % W32 }) := by
  unfold start_race
  dsimp only
  split
  · exact Or.inl rfl
  · split
    · exact Or.inl rfl
    · split
      · exact Or.inl rfl
      · rename_i race heq hst
        exact Or.inr ⟨race, heq, not_not.mp hst, rfl⟩

theorem finish_race_races (s : State) (race_id : Nat) (s' : State)
    (r : Except Error Unit) (h : finish_race s race_id = some (s', r)) :
    s'.races = s.races ∨
    (∃ race race', s.races race_id = some race ∧
      race.status = RaceStatus.Active ∧
      race'.status = RaceStatus.Finished ∧
      s'.races = fupd s.races race_id race') := by
  unfold finish_race at h
  dsimp only at h
  split at h
  · simp only [Option.some.injEq, Prod.mk.injEq] at h
    obtain ⟨h1, _⟩ := h
    subst h1
    exact Or.inl rfl
  · rename_i race heq
    split at h
    · simp only [Option.some.injEq, Prod.mk.injEq] at h
      obtain ⟨h1, _⟩ := h
      subst h1
      exact Or.inl rfl
    · rename_i hst
      split at h
      · exact absurd h (by simp)
      · simp only [Option.some.injEq, Prod.mk.injEq] at h
        obtain ⟨h1, _⟩ := h
        subst h1
        exact Or.inr ⟨race, _, heq, not_not.mp hst, rfl, rfl⟩

theorem update_race_races (s : State) (env : Env) (race_id : Nat)
    (s' : State) (r : Except Error Unit)
    (h : update_race s env race_id = some (s', r)) :
    s'.races = s.races ∨
    (∃ race, s.races race_id = some race ∧
      race.status = RaceStatus.Active ∧
      (∀ rid2, rid2 ≠ race_id → s'.races rid2 = s.races rid2) ∧
      (∃ newr, s'.races race_id = some newr ∧
        (newr.status = RaceStatus.Active ∨
         newr.status = RaceStatus.Finished))) := by
  unfold update_race at h
  dsimp only at h
  split at h
  · simp only [Option.some.injEq, Prod.mk.injEq] at h
    obtain ⟨h1, _⟩ := h
    subst h1
    exact Or.inl rfl
  · rename_i race heq
    split at h
    · simp only [Option.some.injEq, Prod.mk.injEq] at h
      obtain ⟨h1, _⟩ := h
      subst h1
      exact Or.inl rfl
    · rename_i hst
      have hA : race.status = RaceStatus.Active := not_not.mp hst
      split at h
      · rcases finish_race_races _ _ _ _ h with hl | ⟨race2, race', heq2, _, hF, hr⟩
        · exact Or.inl hl
        · refine Or.inr ⟨race, heq, hA, ?_, ?_⟩
          · intro rid2 hne
            rw [hr]
            exact fupd_ne _ _ hne
          · exact ⟨race', by rw [hr]; exact fupd_same _ _ _, Or.inr hF⟩
      · split at h
        · split at h
          · exact absurd h (by simp)
          · rename_i s2 e2 heq2
            simp only [Option.some.injEq, Prod.mk.injEq] at h
            obtain ⟨h1, _⟩ := h
            subst h1
            rcases finish_race_races _ _ _ _ heq2 with hl | ⟨race2, race', heq3, _, hF, hr⟩
            · refine Or.inr ⟨race, heq, hA, ?_, ?_⟩
              · intro rid2 hne
                rw [hl]
                exact fupd_ne _ _ hne
              · exact ⟨_, by rw [hl]; exact fupd_same _ _ _, Or.inl (by exact hA)⟩
            · refine Or.inr ⟨race, heq, hA, ?_, ?_⟩
              · intro rid2 hne
                rw [hr, fupd_ne _ _ hne]
                exact fupd_ne _ _ hne
              · exact ⟨race', by rw [hr]; exact fupd_same _ _ _, Or.inr hF⟩
          · rename_i s2 a heq2
            simp only [Option.some.injEq, Prod.mk.injEq] at h
            obtain ⟨h1, _⟩ := h
            subst h1
            rcases finish_race_races _ _ _ _ heq2 with hl | ⟨race2, race', heq3, _, hF, hr⟩
            · refine Or.inr ⟨race, heq, hA, ?_, ?_⟩
              · intro rid2 hne
                rw [hl]
                exact fupd_ne _ _ hne
              · exact ⟨_, by rw [hl]; exact fupd_same _ _ _, Or.inl (by exact hA)⟩
            · refine Or.inr ⟨race, heq, hA, ?_, ?_⟩
              · intro rid2 hne
                rw [hr, fupd_ne _ _ hne]
                exact fupd_ne _ _ hne
              · exact ⟨race', by rw [hr]; exact fupd_same _ _ _, Or.inr hF⟩
        · simp only [Option.some.injEq, Prod.mk.injEq] at h
          obtain ⟨h1, _⟩ := h
          subst h1
          refine Or.inr ⟨race, heq, hA, ?_, ?_⟩
          · intro rid2 hne
            exact fupd_ne _ _ hne
          · exact ⟨_, fupd_same _ _ _, Or.inl (by exact hA)⟩

end Karera

namespace Karera

/-- States whose race store is empty from `current_race_id` upwards —
true initially and preserved by every operation (so `create_race` never
overwrites an existing race). -/
def RaceIdsBounded (s : State) : Prop :=
  ∀ id, s.current_race_id ≤ id → s.races id = none

/-- The lifecycle transitions a single operation may perform on a single
race record, as stated by the claim: an existing status either stays
put, moves Pending→Active under `start_race`, or moves Active→Finished
under `update_race` (whose internal `finish_race` is the only way out of
Active); a race can only appear with status Pending via `create_race`;
no race record is ever removed. -/
def statusStep (op : Op) (race_id : Nat) :
    Option Race → Option Race → Prop
  | none, none => True
  | none, some newr => newr.status = RaceStatus.Pending ∧ op = Op.create
  | some oldr, some newr =>
    oldr.status = newr.status ∨
    (oldr.status = RaceStatus.Pending ∧ newr.status = RaceStatus.Active ∧
      op = Op.start race_id) ∨
    (oldr.status = RaceStatus.Active ∧ newr.status = RaceStatus.Finished ∧
      op = Op.update race_id)
  | some _, none => False

theorem statusStep_refl (op : Op) (race_id : Nat) (o : Option Race) :
    statusStep op race_id o o := by
  cases o with
  | none => trivial
  | some race => exact Or.inl rfl

theorem statusStep_of_races_eq (op : Op) (s s' : State)
    (h : s'.races = s.races) (rid : Nat) :
    statusStep op rid (s.races rid) (s'.races rid) := by
  rw [h]
  exact statusStep_refl op rid _

/-! ## Claim C8 -/

/-- C8: race statuses only ever move forward along
Pending → Active → Finished.  The initial state has no races; assuming
the race store is empty from `current_race_id` upwards (true initially,
preserved by every operation, so the assumption holds in every reachable
state), each operation preserves that bound and performs only the legal
transitions: `start_race` is the only transition out of Pending,
`update_race` (via the internal `finish_race`) the only transition out of
Active, Finished is terminal, no transition skips Active or goes
backwards, and no race disappears. -/
theorem c8_lifecycle_monotone :
    (∀ o, RaceIdsBounded (initState o)) ∧
    (∀ op s env s' r, run op s env = some (s', r) → RaceIdsBounded s →
      RaceIdsBounded s' ∧
      ∀ rid, statusStep op rid (s.races rid) (s'.races rid)) := by
  constructor
  · intro o id _
    rfl
  · intro op s env s' r hrun hinv
    cases op with
    | create =>
      simp only [run, Option.some.injEq, Prod.mk.injEq] at hrun
      obtain ⟨h1, _⟩ := hrun
      rcases create_race_races s env with ⟨hge, hs⟩ | ⟨hlt, hr, hc⟩
      · rw [← h1, hs]
        exact ⟨hinv, fun rid => statusStep_refl _ _ _⟩
      · constructor
        · intro id hid
          rw [← h1] at hid ⊢
          rw [hc] at hid
          rw [hr, fupd_ne _ _ (by omega)]
          exact hinv id (by omega)
        · intro rid
          rw [← h1, hr]
          by_cases hrid : rid = s.current_race_id
          · rw [hrid, hinv s.current_race_id le_rfl, fupd_same]
            exact ⟨rfl, rfl⟩
          · rw [fupd_ne _ _ hrid]
            exact statusStep_refl _ _ _
    | start rid0 =>
      simp only [run, Option.some.injEq] at hrun
      have h1 : s' = (start_race s env rid0).1 := by rw [hrun]
      have hcur : s'.current_race_id = s.current_race_id := by
        rw [h1]
        exact (start_race_frame s env rid0).2.1
      rcases start_race_races s env rid0 with hs | ⟨race, heq, hP, hr⟩
      · rw [h1, hs]
        exact ⟨hinv, fun rid => statusStep_refl _ _ _⟩
      · constructor
        · intro id hid
          rw [hcur] at hid
          rw [h1, hr]
          have hne : id ≠ rid0 := by
            intro hcontra
            subst hcontra
            rw [hinv id hid] at heq
            cases heq
          rw [fupd_ne _ _ hne]
          exact hinv id hid
        · intro rid
          rw [h1, hr]
          by_cases hrid : rid = rid0
          · subst hrid
            rw [heq, fupd_same]
            exact Or.inr (Or.inl ⟨hP, rfl, rfl⟩)
          · rw [fupd_ne _ _ hrid]
            exact statusStep_refl _ _ _
    | update rid0 =>
      simp only [run] at hrun
      have hcur : s'.current_race_id = s.current_race_id :=
        (update_race_frame s env rid0 s' r hrun).2.1
      rcases update_race_races s env rid0 s' r hrun with hs |
        ⟨race, heq, hA, hother, newr, hnew, hstat⟩
      · exact ⟨fun id hid => by rw [hs]; exact hinv id (hcur ▸ hid),
          statusStep_of_races_eq _ _ _ hs⟩
      · constructor
        · intro id hid
          rw [hcur] at hid
          have hne : id ≠ rid0 := by
            intro hcontra
            subst hcontra
            rw [hinv id hid] at heq
            cases heq
          rw [hother id hne]
          exact hinv id hid
        · intro rid
          by_cases hrid : rid = rid0
          · subst hrid
            rw [heq, hnew]
            rcases hstat with hAc | hF
            · exact Or.inl (hA.trans hAc.symm)
            · exact Or.inr (Or.inr ⟨hA, hF, rfl⟩)
          · rw [hother rid hrid]
            exact statusStep_refl _ _ _
    | place rid0 hid0 =>
      simp only [run, Option.some.injEq] at hrun
      have h1 : s' = (place_bet s env rid0 hid0).1 := by rw [hrun]
      have hr : s'.races = s.races := by
        rw [h1]
        exact (place_bet_frame s env rid0 hid0).2.1
      have hcur : s'.current_race_id = s.current_race_id := by
        rw [h1]
        exact (place_bet_frame s env rid0 hid0).2.2.1
      exact ⟨fun id hid => by rw [hr]; exact hinv id (hcur ▸ hid),
        statusStep_of_races_eq _ _ _ hr⟩
    | claim rid0 =>
      simp only [run, Option.some.injEq, Prod.mk.injEq] at hrun
      obtain ⟨h1, _⟩ := hrun
      have hr : s'.races = s.races := by
        rw [← h1]
        exact (claim_winnings_frame s env rid0).2.1
      have hcur : s'.current_race_id = s.current_race_id := by
        rw [← h1]
        exact (claim_winnings_frame s env rid0).2.2.1
      exact ⟨fun id hid => by rw [hr]; exact hinv id (hcur ▸ hid),
        statusStep_of_races_eq _ _ _ hr⟩

/-- C8 witness: along the concrete scenario the bound on race ids is
preserved and `start_race` performs the Pending→Active transition on
race 0. -/
theorem c8_witness :
    RaceIdsBounded wS4 ∧
    statusStep (Op.start 0) 0 (wS3.races 0) (wS4.races 0) := by
  have h0 : RaceIdsBounded (initState 1) := c8_lifecycle_monotone.1 1
  have h1 := c8_lifecycle_monotone.2 Op.create (initState 1) (wEnv 1 0 0)
    wS1 (Except.ok ()) rfl h0
  have h2 := c8_lifecycle_monotone.2 (Op.place 0 0) wS1 (wEnv 7 100 0)
    wS2 (Except.ok ()) rfl h1.1
  have h3 := c8_lifecycle_monotone.2 (Op.place 0 4) wS2 (wEnv 8 300 0)
    wS3 (Except.ok ()) rfl h2.1
  have h4 := c8_lifecycle_monotone.2 (Op.start 0) wS3 (wEnv 1 0 5)
    wS4 (Except.ok ()) rfl h3.1
  exact ⟨h4.1, h4.2 0⟩

end Karera

namespace Karera

/-! ## Order facts about the sort comparator -/

theorem ncmp_lt {a b : Nat} : ncmp a b = .lt ↔ a < b := by
  unfold ncmp
  split_ifs with h1 h2 <;> simp <;> omega

theorem ncmp_eq {a b : Nat} : ncmp a b = .eq ↔ a = b := by
  unfold ncmp
  split_ifs with h1 h2 <;> simp <;> omega

theorem ncmp_gt {a b : Nat} : ncmp a b = .gt ↔ b < a := by
  unfold ncmp
  split_ifs with h1 h2 <;> simp <;> omega

theorem ocmp_gt_iff (x y : Option Nat) : ocmp x y = .gt ↔ ocmp y x = .lt := by
  cases x <;> cases y <;> simp [ocmp, ncmp_lt, ncmp_gt]

theorem ocmp_le_trans {x y z : Option Nat} (h1 : ocmp x y ≠ .gt)
    (h2 : ocmp y z ≠ .gt) : ocmp x z ≠ .gt := by
  cases x <;> cases y <;> cases z <;>
    simp_all [ocmp, ncmp_gt] <;> omega

theorem ocmp_lt_le_trans {x y z : Option Nat} (h1 : ocmp x y = .lt)
    (h2 : ocmp y z ≠ .gt) : ocmp x z = .lt := by
  cases x <;> cases y <;> cases z <;>
    simp_all [ocmp, ncmp_lt, ncmp_gt] <;> omega

theorem cmpHorse_gt_iff (a b : Horse) :
    cmpHorse a b = .gt ↔ cmpHorse b a = .lt := by
  cases ha : a.finished <;> cases hb : b.finished <;>
    simp [cmpHorse, ha, hb, ncmp_lt, ncmp_gt, ocmp_gt_iff]

theorem cmpHorse_le_trans {a b c : Horse} (h1 : cmpHorse a b ≠ .gt)
    (h2 : cmpHorse b c ≠ .gt) : cmpHorse a c ≠ .gt := by
  cases ha : a.finished <;> cases hb : b.finished <;> cases hc : c.finished <;>
    simp_all [cmpHorse, ncmp_gt] <;>
    first
    | omega
    | exact fun hcon => ocmp_le_trans h1 h2 hcon

theorem cmpHorse_lt_le_trans {a b c : Horse} (h1 : cmpHorse a b = .lt)
    (h2 : cmpHorse b c ≠ .gt) : cmpHorse a c = .lt := by
  cases ha : a.finished <;> cases hb : b.finished <;> cases hc : c.finished <;>
    simp_all [cmpHorse, ncmp_lt, ncmp_gt] <;>
    first
    | omega
    | exact ocmp_lt_le_trans h1 h2

end Karera

namespace Karera

/-- The strict order the final ranking satisfies for id-sorted inputs:
strictly before by the comparator, or comparator-equal with the smaller
horse id first (stability keeps the id-sorted input order). -/
def RH (a b : Horse) : Prop :=
  cmpHorse a b = .lt ∨ (cmpHorse a b = .eq ∧ a.id < b.id)

theorem RH_le {a b : Horse} (h : RH a b) : cmpHorse a b ≠ .gt := by
  rcases h with h | ⟨h, _⟩ <;> simp [h]

theorem mem_insertH {x z : Horse} {l : List Horse} :
    z ∈ insertH x l ↔ z = x ∨ z ∈ l := by
  induction l with
  | nil => simp [insertH]
  | cons y ys ih =>
    unfold insertH
    split
    · simp only [List.mem_cons, ih]
      tauto
    · simp [List.mem_cons]

theorem perm_insertH (x : Horse) (l : List Horse) :
    List.Perm (insertH x l) (x :: l) := by
  induction l with
  | nil => exact List.Perm.refl _
  | cons y ys ih =>
    unfold insertH
    split
    · exact (List.Perm.cons y ih).trans (List.Perm.swap x y ys)
    · exact List.Perm.refl _

theorem perm_foldl_insertH : ∀ (l acc : List Horse),
    List.Perm (l.foldl (fun a x => insertH x a) acc) (acc ++ l)
  | [], acc => by simp
  | x :: l, acc => by
    have h1 := perm_foldl_insertH l (insertH x acc)
    have h2 : List.Perm (insertH x acc ++ l) (x :: (acc ++ l)) :=
      (perm_insertH x acc).append_right l
    exact (h1.trans h2).trans List.perm_middle.symm

/-- The stable sort is a permutation of its input. -/
theorem perm_stableSort (l : List Horse) :
    List.Perm (stableSort l) l := by
  simpa using perm_foldl_insertH l []

theorem pairwise_insertH {x : Horse} {l : List Horse}
    (hl : List.Pairwise RH l) (hid : ∀ y ∈ l, y.id < x.id) :
    List.Pairwise RH (insertH x l) := by
  induction l with
  | nil => simp [insertH]
  | cons y ys ih =>
    rw [List.pairwise_cons] at hl
    unfold insertH
    split
    · rename_i hcmp
      refine List.Pairwise.cons ?_
        (ih hl.2 (fun z hz => hid z (List.mem_cons_of_mem y hz)))
      intro z hz
      rw [mem_insertH] at hz
      rcases hz with hz | hz
      · subst hz
        cases hc : cmpHorse y z with
        | lt => exact Or.inl hc
        | eq => exact Or.inr ⟨hc, hid y (List.mem_cons_self y ys)⟩
        | gt => exact absurd hc hcmp
      · exact hl.1 z hz
    · rename_i hcmp
      have hxy : cmpHorse x y = .lt :=
        (cmpHorse_gt_iff y x).mp (not_not.mp hcmp)
      refine List.Pairwise.cons ?_ (List.Pairwise.cons hl.1 hl.2)
      intro z hz
      rcases List.mem_cons.mp hz with hz | hz
      · subst hz
        exact Or.inl hxy
      · exact Or.inl (cmpHorse_lt_le_trans hxy (RH_le (hl.1 z hz)))

theorem pairwise_foldl_insertH : ∀ (l acc : List Horse),
    List.Pairwise RH acc →
    (∀ y ∈ acc, ∀ x ∈ l, y.id < x.id) →
    List.Pairwise (fun a b => a.id < b.id) l →
    List.Pairwise RH (l.foldl (fun a x => insertH x a) acc)
  | [], acc, hacc, _, _ => hacc
  | x :: l, acc, hacc, hidacc, hl => by
    rw [List.pairwise_cons] at hl
    refine pairwise_foldl_insertH l (insertH x acc)
      (pairwise_insertH hacc
        (fun y hy => hidacc y hy x (List.mem_cons_self x l))) ?_ hl.2
    intro y hy z hz
    rcases mem_insertH.mp hy with hy | hy
    · subst hy
      exact hl.1 z hz
    · exact hidacc y hy z (List.mem_cons_of_mem x hz)

/-- For inputs strictly sorted by horse id, the stable sort's output is
pairwise in the strict comparator-then-id order. -/
theorem pairwise_stableSort {l : List Horse}
    (h : List.Pairwise (fun a b => a.id < b.id) l) :
    List.Pairwise RH (stableSort l) :=
  pairwise_foldl_insertH l [] (List.Pairwise.nil) (by simp) h

end Karera

namespace Karera

/-- Well-formedness of the horse record stored at slot `i` of a race: it
exists, its `id` field equals its slot, and a finished horse carries a
finish time.  `create_race` establishes this for all six slots and
`update_race` preserves it. -/
def horseOk (o : Option Horse) (i : Nat) : Bool :=
  match o with
  | some h => h.id = i && (!h.finished || h.finish_time.isSome)
  | none => false

theorem horseOk_elim {o : Option Horse} {i : Nat} (h : horseOk o i = true) :
    ∃ hh, o = some hh ∧ hh.id = i ∧
      (hh.finished = true → hh.finish_time ≠ none) := by
  cases o with
  | none => simp [horseOk] at h
  | some hh =>
    simp only [horseOk, Bool.and_eq_true, Bool.or_eq_true, decide_eq_true_eq,
      Bool.not_eq_true'] at h
    refine ⟨hh, rfl, h.1, fun hf => ?_⟩
    rcases h.2 with hnf | hsome
    · rw [hf] at hnf
      cases hnf
    · exact Option.isSome_iff_ne_none.mp hsome

theorem filterMap_id_eq : ∀ (l : List Nat) (m : Nat → Option Horse),
    (∀ i ∈ l, ∃ h, m i = some h ∧ h.id = i) →
    (l.filterMap m).map Horse.id = l
  | [], _, _ => rfl
  | i :: l, m, h => by
    obtain ⟨hi, hmi, hid⟩ := h i (List.mem_cons_self i l)
    rw [List.filterMap_cons, hmi]
    simp only [List.map_cons, hid,
      filterMap_id_eq l m (fun j hj => h j (List.mem_cons_of_mem i hj))]

theorem horsesVec_map_id (s : State) (race_id : Nat)
    (hok : ∀ i, i < HORSES_PER_RACE →
      horseOk (s.horses (race_id, i)) i = true) :
    (horsesVec s race_id).map Horse.id = List.range HORSES_PER_RACE := by
  refine filterMap_id_eq _ _ ?_
  intro i hi
  obtain ⟨hh, ho, hid, _⟩ := horseOk_elim (hok i (List.mem_range.mp hi))
  exact ⟨hh, ho, hid⟩

theorem horsesVec_pairwise_id (s : State) (race_id : Nat)
    (hok : ∀ i, i < HORSES_PER_RACE →
      horseOk (s.horses (race_id, i)) i = true) :
    List.Pairwise (fun a b => a.id < b.id) (horsesVec s race_id) := by
  have h := List.pairwise_lt_range HORSES_PER_RACE
  rw [← horsesVec_map_id s race_id hok, List.pairwise_map] at h
  exact h

/-! ## Claim C2 -/

/-- C2: on a race whose six horse slots are well-formed (as `create_race`
makes them and `update_race` keeps them) and whose status is `Active`,
`finish_race` succeeds and the rebuilt `rankings` list is a permutation
of all horse ids `0..HORSES_PER_RACE-1` (hence has length 6 and no
duplicates) with `winner = some (rankings[0])` — whether or not any horse
reached the finish line. -/
theorem c2_rankings_permutation (s : State) (race_id : Nat) (race : Race)
    (hrace : s.races race_id = some race)
    (hA : race.status = RaceStatus.Active)
    (hok : ∀ i, i < HORSES_PER_RACE →
      horseOk (s.horses (race_id, i)) i = true) :
    ∃ s' race', finish_race s race_id = some (s', Except.ok ()) ∧
      s'.races race_id = some race' ∧
      race'.rankings.Perm (List.range HORSES_PER_RACE) ∧
      ∃ w, race'.winner = some w ∧ race'.rankings.head? = some w := by
  have hmap := horsesVec_map_id s race_id hok
  have hperm : List.Perm ((stableSort (horsesVec s race_id)).map Horse.id)
      (List.range HORSES_PER_RACE) := by
    rw [← hmap]
    exact (perm_stableSort _).map _
  obtain ⟨w, tl, hcons⟩ : ∃ w tl,
      (stableSort (horsesVec s race_id)).map Horse.id = w :: tl := by
    cases hx : (stableSort (horsesVec s race_id)).map Horse.id with
    | nil =>
      exfalso
      rw [hx] at hperm
      have := hperm.length_eq
      simp [HORSES_PER_RACE] at this
    | cons a b => exact ⟨a, b, rfl⟩
  have hperm2 : List.Perm (w :: tl) (List.range HORSES_PER_RACE) :=
    hcons ▸ hperm
  refine ⟨{ s with races := fupd s.races race_id { race with rankings := w :: tl, winner := some w, status := RaceStatus.Finished } }, { race with rankings := w :: tl, winner := some w, status := RaceStatus.Finished }, ?_, fupd_same _ _ _, hperm2, w, rfl, rfl⟩
  unfold finish_race
  rw [hrace]
  simp only [hA, ne_eq, not_true_eq_false, if_false, ite_false]
  rw [hcons]

end Karera

namespace Karera

/-- C2 witness: finishing the started race of the concrete scenario
yields rankings that are a permutation of 0..5 headed by the winner. -/
theorem c2_witness :
    (wS4.races 0).map Race.status = some RaceStatus.Active ∧
    (∀ i, i < HORSES_PER_RACE → horseOk (wS4.horses (0, i)) i = true) ∧
    (∃ s' race', finish_race wS4 0 = some (s', Except.ok ()) ∧
      s'.races 0 = some race' ∧
      race'.rankings.Perm (List.range HORSES_PER_RACE) ∧
      ∃ w, race'.winner = some w ∧ race'.rankings.head? = some w) := by
  refine ⟨by decide, by decide, ?_⟩
  exact c2_rankings_permutation wS4 0
    { id := 0, status := RaceStatus.Active, start_block := 5,
      current_block := 5, winner := none, rankings := [] }
    (by decide) rfl (by decide)

end Karera

namespace Karera

/-- The ordering the claim states for the final ranking: two finished
horses by ascending finish time with ascending id on equal times;
finished before unfinished; two unfinished horses by descending position
with ascending id on equal positions. -/
def c6rel (a b : Horse) : Prop :=
  match a.finished, b.finished with
  | true, true =>
    ∃ ta tb, a.finish_time = some ta ∧ b.finish_time = some tb ∧
      (ta < tb ∨ (ta = tb ∧ a.id < b.id))
  | true, false => True
  | false, true => False
  | false, false =>
    b.position < a.position ∨
    (a.position = b.position ∧ a.id < b.id)

theorem RH_c6rel {a b : Horse}
    (ha : a.finished = true → a.finish_time ≠ none)
    (hb : b.finished = true → b.finish_time ≠ none)
    (h : RH a b) : c6rel a b := by
  unfold RH cmpHorse at h
  unfold c6rel
  cases haf : a.finished <;> cases hbf : b.finished <;>
    simp only [haf, hbf] at h ⊢
  · rcases h with h | ⟨h, hid⟩
    · rw [ncmp_lt] at h
      exact Or.inl h
    · rw [ncmp_eq] at h
      exact Or.inr ⟨h.symm, hid⟩
  · rcases h with h | ⟨h, _⟩ <;> cases h
  · obtain ⟨ta, hta⟩ := Option.ne_none_iff_exists'.mp (ha haf)
    obtain ⟨tb, htb⟩ := Option.ne_none_iff_exists'.mp (hb hbf)
    rw [hta, htb] at h
    refine ⟨ta, tb, hta, htb, ?_⟩
    rcases h with h | ⟨h, hid⟩
    · simp only [ocmp, ncmp_lt] at h
      exact Or.inl h
    · simp only [ocmp, ncmp_eq] at h
      exact Or.inr ⟨h, hid⟩

/-- Every horse collected for a race with well-formed slots carries a
finish time when finished. -/
theorem horsesVec_finish_time (s : State) (race_id : Nat)
    (hok : ∀ i, i < HORSES_PER_RACE →
      horseOk (s.horses (race_id, i)) i = true) :
    ∀ z ∈ horsesVec s race_id,
      z.finished = true → z.finish_time ≠ none := by
  intro z hz
  rw [horsesVec, List.mem_filterMap] at hz
  obtain ⟨i, hi, hzi⟩ := hz
  obtain ⟨hh, ho, _, hft⟩ := horseOk_elim (hok i (List.mem_range.mp hi))
  rw [ho] at hzi
  injection hzi with hzi
  subst hzi
  exact hft

/-! ## Claim C6 -/

/-- C6: in the sorted horse list `finish_race` builds its ranking from,
any two finished horses appear in ascending finish-time order with
ascending horse id breaking equal times; every finished horse precedes
every unfinished one; and any two unfinished horses appear in descending
position order with ascending horse id breaking equal positions — the
stable sort over the id-ordered collection makes all tie-breaks
deterministic. -/
theorem c6_tie_break_determinism (s : State) (race_id : Nat)
    (hok : ∀ i, i < HORSES_PER_RACE →
      horseOk (s.horses (race_id, i)) i = true) :
    List.Pairwise c6rel (stableSort (horsesVec s race_id)) := by
  have hpw := pairwise_stableSort (horsesVec_pairwise_id s race_id hok)
  refine List.Pairwise.imp_of_mem ?_ hpw
  intro a b ha hb hr
  have hmem := horsesVec_finish_time s race_id hok
  exact RH_c6rel
    (hmem a ((perm_stableSort _).mem_iff.mp ha))
    (hmem b ((perm_stableSort _).mem_iff.mp hb))
    hr

/-- C6 witness: the tie-break order holds concretely for the scenario's
final race state (all horses unfinished at position 0, ranked by id). -/
theorem c6_witness :
    (∀ i, i < HORSES_PER_RACE → horseOk (wS4.horses (0, i)) i = true) ∧
    List.Pairwise c6rel (stableSort (horsesVec wS4 0)) := by
  refine ⟨by decide, ?_⟩
  exact c6_tie_break_determinism wS4 0 (by decide)

end Karera

namespace Karera

/-! ## Pool-conservation measures (claim C7) -/

/-- Sum of the per-horse pools of a race over all its horses. -/
def horsePoolSum (s : State) (race_id : Nat) : Nat :=
  ((List.range HORSES_PER_RACE).map
    (fun h => (s.horse_pools (race_id, h)).getD 0)).sum

/-- Sum of the amounts of all bet entries recorded under the given race. -/
def betSumL (l : List (BetKey × Bet)) (race_id : Nat) : Nat :=
  (l.map (fun e => if e.1.2.1 = race_id then e.2.amount else 0)).sum

/-- Sum of the amounts of all bets recorded for a race. -/
def betSum (s : State) (race_id : Nat) : Nat :=
  betSumL s.bets race_id

theorem find?_eq_none_filter_eq (m : List (BetKey × Bet)) (k : BetKey)
    (h : m.find? (fun e => decide (e.1 = k)) = none) :
    m.filter (fun e => decide (e.1 ≠ k)) = m := by
  induction m with
  | nil => rfl
  | cons e m ih =>
    have hne : ¬ (e.1 = k) := by
      intro hc
      rw [List.find?_cons_of_pos _ (by simp [hc])] at h
      cases h
    have h2 : m.find? (fun e => decide (e.1 = k)) = none := by
      rwa [List.find?_cons_of_neg _ (by simp [hne])] at h
    rw [List.filter_cons_of_pos (by simp [hne]), ih h2]

theorem bget_bput_same (m : List (BetKey × Bet)) (k : BetKey) (v : Bet) :
    bget (bput m k v) k = some v := by
  unfold bget bput
  rw [List.find?_cons_of_pos _ (by simp)]
  rfl

theorem find?_filter_ne (m : List (BetKey × Bet)) (k q : BetKey)
    (hq : q ≠ k) :
    (m.filter (fun e => decide (e.1 ≠ k))).find?
        (fun e => decide (e.1 = q)) =
      m.find? (fun e => decide (e.1 = q)) := by
  induction m with
  | nil => rfl
  | cons e m ih =>
    by_cases hek : e.1 = k
    · rw [List.filter_cons_of_neg (by simp [hek])]
      rw [List.find?_cons_of_neg _ (by simp [hek]; exact Ne.symm hq)]
      exact ih
    · rw [List.filter_cons_of_pos (by simp [hek])]
      by_cases heq : e.1 = q
      · rw [List.find?_cons_of_pos _ (by simp [heq]),
          List.find?_cons_of_pos _ (by simp [heq])]
      · rw [List.find?_cons_of_neg _ (by simp [heq]),
          List.find?_cons_of_neg _ (by simp [heq])]
        exact ih

theorem bget_bput_ne (m : List (BetKey × Bet)) (k q : BetKey) (v : Bet)
    (h : q ≠ k) : bget (bput m k v) q = bget m q := by
  unfold bget bput
  rw [List.find?_cons_of_neg _ (by simp; exact Ne.symm h),
    find?_filter_ne m k q h]

theorem betSumL_bput (m : List (BetKey × Bet)) (k : BetKey) (v : Bet)
    (race_id : Nat) (hfresh : bget m k = none) :
    betSumL (bput m k v) race_id =
      (if k.2.1 = race_id then v.amount else 0) + betSumL m race_id := by
  unfold betSumL bput
  have hnone : m.find? (fun e => decide (e.1 = k)) = none := by
    unfold bget at hfresh
    exact Option.map_eq_none'.mp hfresh
  rw [find?_eq_none_filter_eq m k hnone]
  simp

theorem sum_map_update (l : List Nat) (f g : Nat → Nat) (k d : Nat)
    (hmem : k ∈ l) (hnd : l.Nodup)
    (hg : ∀ x ∈ l, x ≠ k → g x = f x) (hgk : g k = f k + d) :
    (l.map g).sum = (l.map f).sum + d := by
  induction l with
  | nil => cases hmem
  | cons x l ih =>
    rw [List.nodup_cons] at hnd
    by_cases hxk : x = k
    · have hcong : l.map g = l.map f := by
        apply List.map_congr_left
        intro y hy
        exact hg y (List.mem_cons_of_mem x hy)
          (fun hyk => hnd.1 (by rw [← hxk] at hyk; exact hyk ▸ hy))
      simp only [List.map_cons, List.sum_cons, hcong, hxk, hgk]
      omega
    · have hkl : k ∈ l := by
        rcases List.mem_cons.mp hmem with hk | hk
        · exact absurd hk.symm hxk
        · exact hk
      have hrec := ih hkl hnd.2 (fun y hy => hg y (List.mem_cons_of_mem x hy))
      simp only [List.map_cons, List.sum_cons, hrec,
        hg x (List.mem_cons_self x l) hxk]
      omega

theorem sum_map_congr (l : List Nat) (f g : Nat → Nat)
    (h : ∀ x ∈ l, g x = f x) : (l.map g).sum = (l.map f).sum := by
  rw [List.map_congr_left h]

end Karera

namespace Karera

/-- Pool conservation plus the bet-store well-formedness that backs it:
each race's total pool equals both the sum of its per-horse pools and the
sum of all recorded bet amounts for it, and no bet entry exists at or
beyond a bettor's bet count. -/
def PoolInv (s : State) : Prop :=
  (∀ race_id, (s.total_pool race_id).getD 0 = horsePoolSum s race_id ∧
    (s.total_pool race_id).getD 0 = betSum s race_id) ∧
  (∀ b r i, (s.bet_count (b, r)).getD 0 ≤ i → bget s.bets (b, r, i) = none)

theorem PoolInv_congr {s s' : State} (h1 : s'.total_pool = s.total_pool)
    (h2 : s'.horse_pools = s.horse_pools) (h3 : s'.bets = s.bets)
    (h4 : s'.bet_count = s.bet_count) (h : PoolInv s) : PoolInv s' := by
  unfold PoolInv horsePoolSum betSum betSumL bget at h ⊢
  rw [h1, h2, h3, h4]
  exact h

theorem place_bet_PoolInv (s : State) (env : Env) (race_id horse_id : Nat)
    (hinv : PoolInv s) : PoolInv (place_bet s env race_id horse_id).1 := by
  unfold place_bet
  dsimp only
  split
  · exact hinv
  · split
    · exact hinv
    · split
      · exact hinv
      · rename_i hhid
        split
        · exact hinv
        · rename_i hamt
          have hhid6 : horse_id < HORSES_PER_RACE := by omega
          constructor
          · intro rid
            by_cases hr : rid = race_id
            · subst hr
              constructor
              · show (fupd s.total_pool rid _ rid).getD 0 = _
                rw [fupd_same]
                unfold horsePoolSum
                rw [sum_map_update (List.range HORSES_PER_RACE)
                  (fun h => (s.horse_pools (rid, h)).getD 0)
                  (fun h => (fupd s.horse_pools (rid, horse_id)
                    ((s.horse_pools (rid, horse_id)).getD 0 +
                      env.transferred_value % W128) (rid, h)).getD 0)
                  horse_id (env.transferred_value % W128)
                  (List.mem_range.mpr hhid6) (List.nodup_range _)
                  (fun x _ hx => by
                    dsimp only
                    rw [fupd_ne _ _ (by simp [hx])])
                  (by dsimp only
                      rw [fupd_same]
                      rfl)]
                have hthis := (hinv.1 rid).1
                unfold horsePoolSum at hthis
                simp only [Option.getD_some]
                rw [← hthis]
              · show (fupd s.total_pool rid _ rid).getD 0 = _
                rw [fupd_same]
                unfold betSum
                rw [betSumL_bput _ _ _ _
                  (hinv.2 env.caller rid _ le_rfl)]
                have hthis := (hinv.1 rid).2
                unfold betSum at hthis
                simp only [Option.getD_some, eq_self_iff_true, if_true,
                  ite_true]
                rw [← hthis]
                omega
            · constructor
              · show (fupd s.total_pool race_id _ rid).getD 0 = _
                rw [fupd_ne _ _ hr]
                unfold horsePoolSum
                rw [sum_map_congr (List.range HORSES_PER_RACE)
                  (fun h => (s.horse_pools (rid, h)).getD 0)
                  (fun h => (fupd s.horse_pools (race_id, horse_id)
                    ((s.horse_pools (race_id, horse_id)).getD 0 +
                      env.transferred_value % W128) (rid, h)).getD 0)
                  (fun x _ => by
                    dsimp only
                    rw [fupd_ne _ _ (by simp [hr])])]
                exact (hinv.1 rid).1
              · show (fupd s.total_pool race_id _ rid).getD 0 = _
                rw [fupd_ne _ _ hr]
                unfold betSum
                rw [betSumL_bput _ _ _ _
                  (hinv.2 env.caller race_id _ le_rfl)]
                rw [if_neg (by simpa using Ne.symm hr), Nat.zero_add]
                exact (hinv.1 rid).2
          · intro b r i hi
            dsimp only at hi ⊢
            by_cases hbr : (b, r) = (env.caller, race_id)
            · rw [Prod.mk.injEq] at hbr
              obtain ⟨hb, hr2⟩ := hbr
              rw [hb, hr2] at hi ⊢
              rw [fupd_same] at hi
              simp only [Option.getD_some] at hi
              rw [bget_bput_ne _ _ _ _
                (by simp only [ne_eq, Prod.mk.injEq]
                    intro hcon
                    omega)]
              exact hinv.2 env.caller race_id i (by omega)
            · rw [fupd_ne _ _ hbr] at hi
              rw [bget_bput_ne _ _ _ _
                (by simp only [ne_eq, Prod.mk.injEq]
                    intro hcon
                    exact hbr (by simp [hcon.1, hcon.2.1]))]
              exact hinv.2 b r i hi

end Karera

namespace Karera

/-! ## Claim C7 -/

/-- C7: pool conservation.  (1) The initial state satisfies it; (2) every
operation preserves it, so in every reachable state each race's total
pool equals both the sum of its per-horse pools and the sum of all
recorded bet amounts for it; (3) a successful `place_bet` adds the
attached value to the race's total pool, to the chosen horse's pool, and
appends the bet to the caller's bet sequence (incrementing its count);
(4) no operation other than `place_bet` mutates pools, bets or bet
counts. -/
theorem c7_pool_conservation :
    (∀ o, PoolInv (initState o)) ∧
    (∀ op s env s' r, run op s env = some (s', r) → PoolInv s →
      PoolInv s') ∧
    (∀ s env race_id horse_id s',
      place_bet s env race_id horse_id = (s', Except.ok ()) →
      (s'.total_pool race_id).getD 0 =
        (s.total_pool race_id).getD 0 + env.transferred_value % W128 ∧
      (s'.horse_pools (race_id, horse_id)).getD 0 =
        (s.horse_pools (race_id, horse_id)).getD 0 +
          env.transferred_value % W128 ∧
      (s'.bet_count (env.caller, race_id)).getD 0 =
        (s.bet_count (env.caller, race_id)).getD 0 + 1 ∧
      bget s'.bets
          (env.caller, race_id, (s.bet_count (env.caller, race_id)).getD 0) =
        some { bettor := env.caller, race_id := race_id,
               horse_id := horse_id,
               amount := env.transferred_value % W128 }) ∧
    (∀ op s env s' r, (∀ rid hid, op ≠ Op.place rid hid) →
      run op s env = some (s', r) →
      s'.total_pool = s.total_pool ∧ s'.horse_pools = s.horse_pools ∧
      s'.bets = s.bets ∧ s'.bet_count = s.bet_count) := by
  refine ⟨?_, ?_, ?_, ?_⟩
  · intro o
    refine ⟨fun race_id => ⟨rfl, rfl⟩, fun b r i _ => rfl⟩
  · intro op s env s' r hrun hinv
    cases op with
    | create =>
      simp only [run, Option.some.injEq, Prod.mk.injEq] at hrun
      have hf := create_race_frame s env
      exact PoolInv_congr (hrun.1 ▸ hf.2.2.2.1) (hrun.1 ▸ hf.2.2.2.2.1)
        (hrun.1 ▸ hf.2.2.1) (hrun.1 ▸ hf.2.1) hinv
    | start rid =>
      simp only [run, Option.some.injEq] at hrun
      have h1 : s' = (start_race s env rid).1 := by rw [hrun]
      have hf := start_race_frame s env rid
      exact PoolInv_congr (h1 ▸ hf.2.2.2.2.2.1) (h1 ▸ hf.2.2.2.2.2.2.1)
        (h1 ▸ hf.2.2.2.2.1) (h1 ▸ hf.2.2.2.1) hinv
    | update rid =>
      simp only [run] at hrun
      have hf := update_race_frame s env rid s' r hrun
      exact PoolInv_congr hf.2.2.2.2.1 hf.2.2.2.2.2.1 hf.2.2.2.1
        hf.2.2.1 hinv
    | place rid hid =>
      simp only [run, Option.some.injEq] at hrun
      have h1 : s' = (place_bet s env rid hid).1 := by rw [hrun]
      rw [h1]
      exact place_bet_PoolInv s env rid hid hinv
    | claim rid =>
      simp only [run, Option.some.injEq, Prod.mk.injEq] at hrun
      have hf := claim_winnings_frame s env rid
      exact PoolInv_congr (hrun.1 ▸ hf.2.2.2.2.2.2.1)
        (hrun.1 ▸ hf.2.2.2.2.2.2.2) (hrun.1 ▸ hf.2.2.2.2.2.1)
        (hrun.1 ▸ hf.2.2.2.2.1) hinv
  · intro s env race_id horse_id s' h
    unfold place_bet at h
    dsimp only at h
    split at h
    · simp at h
    · split at h
      · simp at h
      · split at h
        · simp at h
        · split at h
          · simp at h
          · rw [Prod.mk.injEq] at h
            rw [← h.1]
            dsimp only
            refine ⟨?_, ?_, ?_, ?_⟩
            · rw [fupd_same]
              rfl
            · rw [fupd_same]
              rfl
            · rw [fupd_same]
              rfl
            · exact bget_bput_same _ _ _
  · intro op s env s' r hnp hrun
    cases op with
    | create =>
      simp only [run, Option.some.injEq, Prod.mk.injEq] at hrun
      have hf := create_race_frame s env
      exact ⟨hrun.1 ▸ hf.2.2.2.1, hrun.1 ▸ hf.2.2.2.2.1,
        hrun.1 ▸ hf.2.2.1, hrun.1 ▸ hf.2.1⟩
    | start rid =>
      simp only [run, Option.some.injEq] at hrun
      have h1 : s' = (start_race s env rid).1 := by rw [hrun]
      have hf := start_race_frame s env rid
      exact ⟨h1 ▸ hf.2.2.2.2.2.1, h1 ▸ hf.2.2.2.2.2.2.1,
        h1 ▸ hf.2.2.2.2.1, h1 ▸ hf.2.2.2.1⟩
    | update rid =>
      simp only [run] at hrun
      have hf := update_race_frame s env rid s' r hrun
      exact ⟨hf.2.2.2.2.1, hf.2.2.2.2.2.1, hf.2.2.2.1, hf.2.2.1⟩
    | place rid hid => exact absurd rfl (hnp rid hid)
    | claim rid =>
      simp only [run, Option.some.injEq, Prod.mk.injEq] at hrun
      have hf := claim_winnings_frame s env rid
      exact ⟨hrun.1 ▸ hf.2.2.2.2.2.2.1, hrun.1 ▸ hf.2.2.2.2.2.2.2,
        hrun.1 ▸ hf.2.2.2.2.2.1, hrun.1 ▸ hf.2.2.2.2.1⟩

/-- C7 witness: along the concrete scenario, pool conservation holds
after both bets, and the second bet's deltas are as stated. -/
theorem c7_witness :
    PoolInv wS3 ∧
    (wS3.total_pool 0).getD 0 =
      (wS2.total_pool 0).getD 0 + (wEnv 8 300 0).transferred_value % W128 := by
  have h0 : PoolInv (initState 1) := c7_pool_conservation.1 1
  have h1 := c7_pool_conservation.2.1 Op.create (initState 1) (wEnv 1 0 0)
    wS1 (Except.ok ()) rfl h0
  have h2 := c7_pool_conservation.2.1 (Op.place 0 0) wS1 (wEnv 7 100 0)
    wS2 (Except.ok ()) rfl h1
  have h3 := c7_pool_conservation.2.1 (Op.place 0 4) wS2 (wEnv 8 300 0)
    wS3 (Except.ok ()) rfl h2
  have h4 := c7_pool_conservation.2.2.1 wS2 (wEnv 8 300 0) 0 4 wS3 rfl
  exact ⟨h3, h4.1⟩

end Karera
